import Mathlib

/-!
Verification of the continued-fraction approximation core of the preseq
library (`continued_fraction.cpp` / `continued_fraction.hpp`).

Doubles are modelled as exact rationals (`ℚ`), with the usual total-division
convention `x / 0 = 0`.  Reads past the end of a vector (which are undefined
behaviour in the C++) are modelled by `List.getD _ _ 0`; a separate
bounds-checked model (`quotdiff_checked`) tracks them for the safety claim.
Unbounded `while`/`for (double t ...)` loops are modelled with an explicit
fuel argument (for the grid loops, a fuel sufficient for the loop to stop by
its own condition).
-/

namespace Preseq

/-- The source constant `TOLERANCE = 1e-20`, as an exact rational. -/
def TOLERANCE : ℚ := 1 / 10 ^ 20

/-- The source constant `DERIV_DELTA = 1e-8`, as an exact rational. -/
def DERIV_DELTA : ℚ := 1 / 10 ^ 8

/-- The value `std::numeric_limits<double>::max()` used as a sentinel by
`locate_zero_cf_deriv` and `lowerbound_librarysize`. -/
def dblMax : ℚ := (2 ^ 53 - 1) * 2 ^ 971

/-- The function `get_rescale_value(numerator, denominator)` (real overload,
lines 39-47). -/
def get_rescale_value (numerator denom : ℚ) : ℚ :=
  let rescale_val := |numerator| + |denom|
  if rescale_val > 1 / TOLERANCE then 1 / rescale_val
  else if rescale_val < TOLERANCE then 1 / rescale_val
  else 1

/-- Rows of the quotient table (`.1`) and error table (`.2`) built by
`quotdiff_algorithm` (lines 68-96).  A row is a total function on column
indices; entries the source never writes (and reads past the end of a row,
which are undefined behaviour) are the initial `0`. -/
def qdTables (ps_coeffs : List ℚ) : ℕ → (ℕ → ℚ) × (ℕ → ℚ)
  | 0 => (fun _ => 0, fun _ => 0)
  | 1 =>
      let depth := ps_coeffs.length
      let q1 : ℕ → ℚ := fun j =>
        if j < depth then ps_coeffs.getD (j + 1) 0 / ps_coeffs.getD j 0 else 0
      let e1 : ℕ → ℚ := fun j =>
        if j < depth - 1 then q1 (j + 1) - q1 j + (qdTables ps_coeffs 0).2 (j + 1) else 0
      (q1, e1)
  | i + 2 =>
      let depth := ps_coeffs.length
      let prev := qdTables ps_coeffs (i + 1)
      let qi : ℕ → ℚ := fun j =>
        if j < depth then prev.1 (j + 1) * prev.2 (j + 1) / prev.2 j else 0
      let ei : ℕ → ℚ := fun j =>
        if j < depth then qi (j + 1) - qi j + prev.2 (j + 1) else 0
      (qi, ei)

/-- The function `quotdiff_algorithm(ps_coeffs, cf_coeffs)` (lines 68-96):
the continued-fraction coefficients pushed into `cf_coeffs`. -/
def quotdiff_algorithm (ps_coeffs : List ℚ) : List ℚ :=
  ps_coeffs.getD 0 0 ::
    (List.range' 1 (ps_coeffs.length - 1)).map fun i =>
      if i % 2 = 0 then -((qdTables ps_coeffs (i / 2)).2 0)
      else -((qdTables ps_coeffs ((i + 1) / 2)).1 0)

/-- The function `quotdiff_above_diagonal(coeffs, offset, offset_coeffs,
cf_coeffs)` (lines 100-112).  The result pair is in the declared parameter
order: first what the function stores into its `offset_coeffs` parameter
(the first `offset` input coefficients, verbatim), then what it stores into
its `cf_coeffs` parameter (the quotient-difference output on the suffix). -/
def quotdiff_above_diagonal (coeffs : List ℚ) (offset : ℕ) : List ℚ × List ℚ :=
  (coeffs.take offset, quotdiff_algorithm (coeffs.drop offset))

/-- The reciprocal-series loop of `quotdiff_below_diagonal` (lines 121-128). -/
def reciprocalCoeffs (coeffs : List ℚ) : List ℚ :=
  (List.range' 1 (coeffs.length - 1)).foldl
    (fun acc i =>
      acc ++ [-(((List.range i).foldl
          (fun holding_val j => holding_val + coeffs.getD (i - j) 0 * acc.getD j 0) 0) /
        coeffs.getD 0 0)])
    [1 / coeffs.getD 0 0]

/-- The function `quotdiff_below_diagonal(coeffs, offset, offset_coeffs,
cf_coeffs)` (lines 116-140).  The result pair is in the declared parameter
order (`offset_coeffs`, then `cf_coeffs`). -/
def quotdiff_below_diagonal (coeffs : List ℚ) (offset : ℕ) : List ℚ × List ℚ :=
  let reciprocal_coeffs := reciprocalCoeffs coeffs
  (reciprocal_coeffs.take offset, quotdiff_algorithm (reciprocal_coeffs.drop offset))

/-- The struct `ContinuedFraction` (continued_fraction.hpp, lines 30-46). -/
structure ContinuedFraction where
  ps_coeffs : List ℚ
  cf_coeffs : List ℚ
  offset_coeffs : List ℚ
  diagonal_idx : ℤ
  degree : ℕ
deriving DecidableEq

/-- The constructor `ContinuedFraction::ContinuedFraction(ps_cf, di, dg)`
(lines 143-154).  For `di > 0` the source passes its two output members to
`quotdiff_above_diagonal` in the order `(cf_coeffs, offset_coeffs)`, i.e.
swapped with respect to that function's `(offset_coeffs, cf_coeffs)`
parameters, so the member `cf_coeffs` receives the pair's first component
and the member `offset_coeffs` the second. -/
def ContinuedFraction.make (ps_cf : List ℚ) (di : ℤ) (dg : ℕ) : ContinuedFraction :=
  if di = 0 then
    { ps_coeffs := ps_cf, cf_coeffs := quotdiff_algorithm ps_cf, offset_coeffs := [],
      diagonal_idx := di, degree := dg }
  else if di > 0 then
    let p := quotdiff_above_diagonal ps_cf di.toNat
    { ps_coeffs := ps_cf, cf_coeffs := p.1, offset_coeffs := p.2,
      diagonal_idx := di, degree := dg }
  else
    let p := quotdiff_below_diagonal ps_cf (-di).toNat
    { ps_coeffs := ps_cf, cf_coeffs := p.2, offset_coeffs := p.1,
      diagonal_idx := di, degree := dg }

/-- The running state of Euler's two-term recurrence: the six local variables
of the evaluation loops (lines 170-176 etc.), in source order. -/
structure EvalState where
  current_num : ℚ
  prev_num1 : ℚ
  prev_num2 : ℚ
  current_denom : ℚ
  prev_denom1 : ℚ
  prev_denom2 : ℚ
deriving DecidableEq

/-- The state before the evaluation loop: `current_num = 0`,
`prev_num1 = cf_coeffs[0]`, `prev_num2 = 0`, `current_denom = 0`,
`prev_denom1 = prev_denom2 = 1`. -/
def evalInit (c0 : ℚ) : EvalState := ⟨0, c0, 0, 0, 1, 1⟩

/-- One iteration of the evaluation loop with the rescaling step
(lines 178-200): recurrence, shift, rescale of the current and the two
previous numerator and denominator values. -/
def evalStep (val c : ℚ) (s : EvalState) : EvalState :=
  let current_num := s.prev_num1 + c * val * s.prev_num2
  let current_denom := s.prev_denom1 + c * val * s.prev_denom2
  let rescale_val := get_rescale_value current_num current_denom
  ⟨current_num * rescale_val, current_num * rescale_val, s.prev_num1 * rescale_val,
    current_denom * rescale_val, current_denom * rescale_val, s.prev_denom1 * rescale_val⟩

/-- One iteration of the same loop with the rescaling step removed.  This is
the comparison recurrence of the rescaling-invariance property; it is not in
the source. -/
def evalStepPlain (val c : ℚ) (s : EvalState) : EvalState :=
  let current_num := s.prev_num1 + c * val * s.prev_num2
  let current_denom := s.prev_denom1 + c * val * s.prev_denom2
  ⟨current_num, current_num, s.prev_num1, current_denom, current_denom, s.prev_denom1⟩

/-- The index sequence `i = 1, ..., depth - 1` of the evaluation loops. -/
def evalIndices (depth : ℕ) : List ℕ := List.range' 1 (depth - 1)

/-- The function `evaluate_on_diagonal(cf_coeffs, val, depth)` (lines 262-298). -/
def evaluate_on_diagonal (cf_coeffs : List ℚ) (val : ℚ) (depth : ℕ) : ℚ :=
  let s := (evalIndices depth).foldl (fun s i => evalStep val (cf_coeffs.getD i 0) s)
    (evalInit (cf_coeffs.getD 0 0))
  val * s.current_num / s.current_denom

/-- The same computation as `evaluate_on_diagonal` but with no rescaling step:
the reference recurrence against which rescaling invariance is stated. -/
def evaluate_on_diagonal_norescale (cf_coeffs : List ℚ) (val : ℚ) (depth : ℕ) : ℚ :=
  let s := (evalIndices depth).foldl (fun s i => evalStepPlain val (cf_coeffs.getD i 0) s)
    (evalInit (cf_coeffs.getD 0 0))
  val * s.current_num / s.current_denom

/-- The offset polynomial `offset_part` of the above/below-diagonal
evaluators (lines 202-204): the sum of `offset_coeffs[i] * val^i` over
`i < min(offset_coeffs.size(), depth)`. -/
def offsetPart (offset_coeffs : List ℚ) (val : ℚ) (depth : ℕ) : ℚ :=
  (List.range (min offset_coeffs.length depth)).foldl
    (fun acc i => acc + offset_coeffs.getD i 0 * val ^ i) 0

/-- The function `evaluate_above_diagonal(cf_coeffs, offset_coeffs, val,
depth)` (lines 165-208). -/
def evaluate_above_diagonal (cf_coeffs offset_coeffs : List ℚ) (val : ℚ) (depth : ℕ) : ℚ :=
  let s := (evalIndices depth).foldl (fun s i => evalStep val (cf_coeffs.getD i 0) s)
    (evalInit (cf_coeffs.getD 0 0))
  val * (offsetPart offset_coeffs val depth +
    val ^ min offset_coeffs.length depth * s.current_num / s.current_denom)

/-- The function `evaluate_below_diagonal(cf_coeffs, offset_coeffs, val,
depth)` (lines 212-257). -/
def evaluate_below_diagonal (cf_coeffs offset_coeffs : List ℚ) (val : ℚ) (depth : ℕ) : ℚ :=
  let s := (evalIndices depth).foldl (fun s i => evalStep val (cf_coeffs.getD i 0) s)
    (evalInit (cf_coeffs.getD 0 0))
  val / (offsetPart offset_coeffs val depth +
    val ^ min offset_coeffs.length depth * s.current_num / s.current_denom)

/-- The evaluation operator `ContinuedFraction::operator()(val)`
(lines 302-311). -/
def ContinuedFraction.eval (cf : ContinuedFraction) (val : ℚ) : ℚ :=
  if cf.diagonal_idx > 0 then evaluate_above_diagonal cf.cf_coeffs cf.offset_coeffs val cf.degree
  else if cf.diagonal_idx < 0 then
    evaluate_below_diagonal cf.cf_coeffs cf.offset_coeffs val cf.degree
  else evaluate_on_diagonal cf.cf_coeffs val cf.degree

/-- A complex double `std::complex<double>`, modelled as a pair of exact
rationals. -/
structure Cq where
  re : ℚ
  im : ℚ
deriving DecidableEq

instance : Add Cq := ⟨fun z w => ⟨z.re + w.re, z.im + w.im⟩⟩

instance : Mul Cq := ⟨fun z w => ⟨z.re * w.re - z.im * w.im, z.re * w.im + z.im * w.re⟩⟩

/-- Complex division, componentwise over the squared magnitude of the
divisor (as `std::complex` division); dividing by zero gives `0` under the
rational total-division convention. -/
instance : Div Cq :=
  ⟨fun z w =>
    let d := w.re * w.re + w.im * w.im
    ⟨(z.re * w.re + z.im * w.im) / d, (z.im * w.re - z.re * w.im) / d⟩⟩

/-- The squared magnitude `std::norm`. -/
def Cq.norm (z : Cq) : ℚ := z.re * z.re + z.im * z.im

/-- Scaling a complex value by a real (`complex * double`). -/
def Cq.scale (r : ℚ) (z : Cq) : Cq := ⟨r * z.re, r * z.im⟩

/-- Complex integer power `std::pow(z, i)`. -/
def Cq.pow (z : Cq) : ℕ → Cq
  | 0 => ⟨1, 0⟩
  | n + 1 => Cq.pow z n * z

/-- The function `get_rescale_value(numerator, denominator)` (complex
overload, lines 49-57), which uses squared magnitudes. -/
def get_rescale_value_complex (numerator denom : Cq) : ℚ :=
  let rescale_val := numerator.norm + denom.norm
  if rescale_val > 1 / TOLERANCE then 1 / rescale_val
  else if rescale_val < TOLERANCE then 1 / rescale_val
  else 1

/-- The state of the complex evaluation loops. -/
structure CEvalState where
  current_num : Cq
  prev_num1 : Cq
  prev_num2 : Cq
  current_denom : Cq
  prev_denom1 : Cq
  prev_denom2 : Cq
deriving DecidableEq

/-- The state before a complex evaluation loop. -/
def cevalInit (c0 : ℚ) : CEvalState := ⟨⟨0, 0⟩, ⟨c0, 0⟩, ⟨0, 0⟩, ⟨0, 0⟩, ⟨1, 0⟩, ⟨1, 0⟩⟩

/-- One iteration of the complex evaluation loop with its rescaling step. -/
def cevalStep (perturbed_val : Cq) (c : ℚ) (s : CEvalState) : CEvalState :=
  let coeff : Cq := ⟨c, 0⟩
  let current_num := s.prev_num1 + coeff * perturbed_val * s.prev_num2
  let current_denom := s.prev_denom1 + coeff * perturbed_val * s.prev_denom2
  let rescale_val := get_rescale_value_complex current_num current_denom
  ⟨Cq.scale rescale_val current_num, Cq.scale rescale_val current_num,
    Cq.scale rescale_val s.prev_num1, Cq.scale rescale_val current_denom,
    Cq.scale rescale_val current_denom, Cq.scale rescale_val s.prev_denom1⟩

/-- The function `evaluate_complex_on_diagonal` (lines 321-363). -/
def evaluate_complex_on_diagonal (cf_coeffs : List ℚ) (perturbed_val : Cq) (depth : ℕ) : Cq :=
  if perturbed_val.norm = 0 then ⟨0, 0⟩
  else
    let s := (evalIndices depth).foldl
      (fun s j => cevalStep perturbed_val (cf_coeffs.getD j 0) s)
      (cevalInit (cf_coeffs.getD 0 0))
    perturbed_val * s.current_num / s.current_denom

/-- The complex offset polynomial `offset_terms` of the above/below-diagonal
complex evaluators. -/
def cOffsetPart (offset_coeffs : List ℚ) (perturbed_val : Cq) (depth : ℕ) : Cq :=
  (List.range (min offset_coeffs.length depth)).foldl
    (fun acc i => acc + (⟨offset_coeffs.getD i 0, 0⟩ : Cq) * Cq.pow perturbed_val i) ⟨0, 0⟩

/-- The function `evaluate_complex_above_diagonal` (lines 366-417). -/
def evaluate_complex_above_diagonal (cf_coeffs offset_coeffs : List ℚ)
    (perturbed_val : Cq) (depth : ℕ) : Cq :=
  if perturbed_val.norm = 0 then ⟨0, 0⟩
  else
    let s := (evalIndices depth).foldl
      (fun s j => cevalStep perturbed_val (cf_coeffs.getD j 0) s)
      (cevalInit (cf_coeffs.getD 0 0))
    perturbed_val * (cOffsetPart offset_coeffs perturbed_val depth +
      Cq.pow perturbed_val (min offset_coeffs.length depth) * s.current_num / s.current_denom)

/-- The function `evaluate_complex_below_diagonal` (lines 420-470).  Its loop
runs to `cf_coeffs.size()`, not to the `depth` parameter used by the other
two complex evaluators (the inconsistency noted in the design notes of the
specification). -/
def evaluate_complex_below_diagonal (cf_coeffs offset_coeffs : List ℚ)
    (perturbed_val : Cq) (depth : ℕ) : Cq :=
  if perturbed_val.norm = 0 then ⟨0, 0⟩
  else
    let s := (evalIndices cf_coeffs.length).foldl
      (fun s j => cevalStep perturbed_val (cf_coeffs.getD j 0) s)
      (cevalInit (cf_coeffs.getD 0 0))
    perturbed_val / (cOffsetPart offset_coeffs perturbed_val depth +
      Cq.pow perturbed_val (min offset_coeffs.length depth) * s.current_num / s.current_denom)

/-- The method `ContinuedFraction::complex_deriv(val)` (lines 475-496):
evaluate the appropriate complex evaluator at `val + i*DERIV_DELTA` and
return the imaginary part divided by `DERIV_DELTA`. -/
def ContinuedFraction.complex_deriv (cf : ContinuedFraction) (val : ℚ) : ℚ :=
  let perturbed : Cq := ⟨val, DERIV_DELTA⟩
  let df : Cq :=
    if cf.diagonal_idx = 0 then evaluate_complex_on_diagonal cf.cf_coeffs perturbed cf.degree
    else if cf.diagonal_idx > 0 then
      evaluate_complex_above_diagonal cf.cf_coeffs cf.offset_coeffs perturbed cf.degree
    else evaluate_complex_below_diagonal cf.cf_coeffs cf.offset_coeffs perturbed cf.degree
  df.im / DERIV_DELTA

/-- The grid loop of `extrapolate_distinct` (line 526) and `local_max`
(line 607): `for (double t = step_size; t <= max_value; t += step_size)`,
with an explicit fuel (the source loop has no iteration bound of its own). -/
def extrapLoop (f : ℚ → ℚ) (hist_sum max_value step_size : ℚ) : ℕ → ℚ → List ℚ
  | 0, _ => []
  | fuel + 1, t =>
      if t ≤ max_value then
        (hist_sum + f t) :: extrapLoop f hist_sum max_value step_size fuel (t + step_size)
      else []

/-- Fuel sufficient for the grid loop to stop by its own `t <= max_value`
condition when `step_size > 0`. -/
def gridFuel (max_value step_size : ℚ) : ℕ := (⌊max_value / step_size⌋).toNat + 1

/-- The method `ContinuedFraction::extrapolate_distinct(counts_hist,
max_value, step_size, estimates)` (lines 519-528). -/
def ContinuedFraction.extrapolate_distinct (cf : ContinuedFraction) (counts_hist : List ℚ)
    (max_value step_size : ℚ) : List ℚ :=
  let hist_sum := counts_hist.sum
  hist_sum ::
    extrapLoop cf.eval hist_sum max_value step_size (gridFuel max_value step_size) step_size

/-- The tail of the stability scan: the loop of `check_estimates_stability`
from `i >= 2` on, carrying the two previous estimates. -/
def checkRest (a b : ℚ) : List ℚ → Bool
  | [] => true
  | c :: t => if c < b ∨ c - b > b - a then false else checkRest b c t

/-- The function `check_estimates_stability(estimates)` (lines 617-627). -/
def check_estimates_stability : List ℚ → Bool
  | [] => true
  | [_] => true
  | a :: b :: t => if b < a then false else checkRest a b t

/-- The class `ContinuedFractionApproximation` (continued_fraction.hpp,
lines 52-78): its four configuration members. -/
structure ContinuedFractionApproximation where
  diagonal_idx : ℤ
  max_terms : ℕ
  step_size : ℚ
  max_value : ℚ

/-- The constant `MIN_ALLOWED_DEGREE = 6`. -/
def MIN_ALLOWED_DEGREE : ℕ := 6

/-- The power-series coefficients built from the histogram (lines 645-647
and 687-689): `ps_coeffs[j] = counts_hist[j + 1] * (-1)^(j + 2)`. -/
def psCoeffsOfHist (counts_hist : List ℚ) (local_max_terms : ℕ) : List ℚ :=
  (List.range local_max_terms).map fun j => counts_hist.getD (j + 1) 0 * (-1 : ℚ) ^ (j + 2)

/-- The degree-search loop of `optimal_continued_fraction` (lines 649-662):
`for (n_terms = local_max_terms; n_terms >= MIN_ALLOWED_DEGREE; n_terms -= 2)`,
returning the first stable continued fraction, and the fitting-failure throw
(line 662) modelled as `Except.error`. -/
def optimalGo (cfa : ContinuedFractionApproximation) (counts_hist ps_coeffs : List ℚ)
    (n_terms : ℕ) : Except Unit ContinuedFraction :=
  if h : MIN_ALLOWED_DEGREE ≤ n_terms then
    let cf := ContinuedFraction.make ps_coeffs cfa.diagonal_idx n_terms
    if check_estimates_stability
        (cf.extrapolate_distinct counts_hist cfa.max_value cfa.step_size) then
      Except.ok cf
    else optimalGo cfa counts_hist ps_coeffs (n_terms - 2)
  else Except.error ()
termination_by n_terms
decreasing_by simp_wf; simp only [MIN_ALLOWED_DEGREE] at h; omega

/-- The method `ContinuedFractionApproximation::optimal_continued_fraction(
counts_hist)` (lines 634-666). -/
def ContinuedFractionApproximation.optimal_continued_fraction
    (cfa : ContinuedFractionApproximation) (counts_hist : List ℚ) :
    Except Unit ContinuedFraction :=
  let local_max_terms := cfa.max_terms - cfa.max_terms % 2
  let counts_sum : ℚ :=
    (List.range counts_hist.length).foldl
      (fun acc (i : ℕ) => acc + (i : ℚ) * counts_hist.getD i 0) 0
  let ps_coeffs := psCoeffsOfHist counts_hist local_max_terms
  optimalGo cfa counts_hist ps_coeffs local_max_terms

/-- The helper `movement(a, b) = fabs((a - b)/max(a, b))` (lines 555-558). -/
def movement (a b : ℚ) : ℚ := |(a - b) / max a b|

/-- The local variables of the bisection loop of `locate_zero_cf_deriv`
(lines 568-578): bracket endpoints, their derivative values, the last
midpoint, the previous midpoint derivative and the relative change. -/
structure LocState where
  val_low : ℚ
  val_high : ℚ
  deriv_low : ℚ
  deriv_high : ℚ
  val_mid : ℚ
  prev_deriv : ℚ
  diff : ℚ
deriving DecidableEq

/-- One iteration of the bisection loop (lines 580-594). -/
def locateIter (cf : ContinuedFraction) (s : LocState) : LocState :=
  let val_mid := (s.val_low + s.val_high) / 2
  let deriv_mid := cf.complex_deriv val_mid
  let keepHigh := (deriv_mid > 0 ∧ s.deriv_low < 0) ∨ (deriv_mid < 0 ∧ s.deriv_low > 0)
  let val_low := if keepHigh then s.val_low else val_mid
  let val_high := if keepHigh then val_mid else s.val_high
  let deriv_low := cf.complex_deriv val_low
  let deriv_high := cf.complex_deriv val_high
  let diff := |(s.prev_deriv - deriv_mid) / s.prev_deriv|
  ⟨val_low, val_high, deriv_low, deriv_high, val_mid, deriv_mid, diff⟩

/-- The bisection `while` loop (line 580), with an explicit fuel: the source
loop runs until both stopping tolerances fire. -/
def locateLoop (cf : ContinuedFraction) : ℕ → LocState → LocState
  | 0, s => s
  | fuel + 1, s =>
      if s.diff > TOLERANCE ∧ movement s.val_low s.val_high > TOLERANCE then
        locateLoop cf fuel (locateIter cf s)
      else s

/-- The method `ContinuedFractionApproximation::locate_zero_cf_deriv(cf, val,
prev_val)` (lines 563-597), returning the final `val_mid`
(initially `(val - prev_val)/2`). -/
def locate_zero_cf_deriv (cf : ContinuedFraction) (fuel : ℕ) (val prev_val : ℚ) : ℚ :=
  (locateLoop cf fuel
    ⟨prev_val, val, cf.complex_deriv prev_val, cf.complex_deriv val,
      (val - prev_val) / 2, dblMax, dblMax⟩).val_mid

/-- The grid loop of `local_max` (lines 606-608), with the same fuel
discipline as the extrapolation grid; `lfuel` is the fuel handed to each
bisection call. -/
def localMaxLoop (cfa : ContinuedFractionApproximation) (lfuel : ℕ) (cf : ContinuedFraction) :
    ℕ → ℚ → ℚ → ℚ
  | 0, _, current_max => current_max
  | fuel + 1, val, current_max =>
      if val ≤ cfa.max_value then
        localMaxLoop cfa lfuel cf fuel (val + cfa.step_size)
          (max current_max (cf.eval (locate_zero_cf_deriv cf lfuel val (val - cfa.step_size))))
      else current_max

/-- The method `ContinuedFractionApproximation::local_max(cf, upper_bound,
deriv_upper)` (lines 602-610); the two bound arguments are taken and, as in
the source, never used. -/
def ContinuedFractionApproximation.local_max (cfa : ContinuedFractionApproximation)
    (lfuel : ℕ) (cf : ContinuedFraction) (upper_bound deriv_upper : ℚ) : ℚ :=
  localMaxLoop cfa lfuel cf (gridFuel cfa.max_value cfa.step_size) cfa.step_size (cf.eval 0)

/-- The degree loop of `lowerbound_librarysize` (lines 695-701):
`for (n_terms = local_max_terms; n_terms > MIN_ALLOWED_DEGREE; n_terms -= 2)`,
folding `best = min(best, candidate)`. -/
def lbGo (perDeg : ℕ → ℚ) (n_terms : ℕ) (best : ℚ) : ℚ :=
  if h : MIN_ALLOWED_DEGREE < n_terms then lbGo perDeg (n_terms - 2) (min best (perDeg n_terms))
  else best
termination_by n_terms
decreasing_by simp_wf; simp only [MIN_ALLOWED_DEGREE] at h; omega

/-- The candidate value `candidate_best` of one degree iteration of
`lowerbound_librarysize` (lines 697-698): `local_max` of the continued
fraction built at that degree from the sign-alternated power series, with
the histogram sum as `distinct_reads`. -/
def lbPerDegree (cfa : ContinuedFractionApproximation) (lfuel : ℕ) (counts_hist : List ℚ)
    (upper_bound : ℚ) (n_terms : ℕ) : ℚ :=
  cfa.local_max lfuel
    (ContinuedFraction.make (psCoeffsOfHist counts_hist (cfa.max_terms - cfa.max_terms % 2))
      cfa.diagonal_idx n_terms)
    upper_bound counts_hist.sum

/-- The method `ContinuedFractionApproximation::lowerbound_librarysize(
counts_hist, upper_bound)` (lines 675-703): the degree loop folded from
`best = numeric_limits<double>::max()`, the locals `distinct_reads`,
`local_max_terms` and `ps_coeffs` inlined through `lbPerDegree`. -/
def ContinuedFractionApproximation.lowerbound_librarysize
    (cfa : ContinuedFractionApproximation) (lfuel : ℕ) (counts_hist : List ℚ)
    (upper_bound : ℚ) : ℚ :=
  lbGo (lbPerDegree cfa lfuel counts_hist upper_bound)
    (cfa.max_terms - cfa.max_terms % 2) dblMax

/-- One row-pair step of the bounds-checked model of `quotdiff_algorithm`:
rows `i >= 2` (lines 81-87), with every element access checked
(`List.get?`), so that any out-of-bounds read of the source yields `none`. -/
def qdRowChecked (depth : ℕ) (qp ep : List ℚ) : Option (List ℚ × List ℚ) := do
  let qi ← (List.range depth).mapM fun j => do
    let a ← qp.get? (j + 1)
    let b ← ep.get? (j + 1)
    let c ← ep.get? j
    pure (a * b / c)
  let ei ← (List.range depth).mapM fun j => do
    let x ← qi.get? (j + 1)
    let y ← qi.get? j
    let z ← ep.get? (j + 1)
    pure (x - y + z)
  pure (qi, ei)

/-- The bounds-checked model of `quotdiff_algorithm` (lines 68-96): the same
computation with every sequence access checked; it returns `none` exactly
when the source performs an out-of-bounds access (reads row entries the
source never writes are the written `0.0` initial values and stay in
bounds). -/
def quotdiff_checked (ps_coeffs : List ℚ) : Option (List ℚ) := do
  let depth := ps_coeffs.length
  let q0 := List.replicate depth (0 : ℚ)
  let e0 := List.replicate depth (0 : ℚ)
  let q1 ← (List.range depth).mapM fun i => do
    let a ← ps_coeffs.get? (i + 1)
    let b ← ps_coeffs.get? i
    pure (a / b)
  let e1w ← (List.range (depth - 1)).mapM fun j => do
    let x ← q1.get? (j + 1)
    let y ← q1.get? j
    let z ← e0.get? (j + 1)
    pure (x - y + z)
  let e1 := e1w ++ List.replicate (depth - e1w.length) 0
  let tables ← (List.range' 2 (depth - 2)).foldlM
    (fun (acc : List (List ℚ) × List (List ℚ)) _i => do
      let qprev ← acc.1.get? (acc.1.length - 1)
      let eprev ← acc.2.get? (acc.2.length - 1)
      let p ← qdRowChecked depth qprev eprev
      pure (acc.1 ++ [p.1], acc.2 ++ [p.2]))
    ([q0, q1], [e0, e1])
  let c0 ← ps_coeffs.get? 0
  let rest ← (List.range' 1 (depth - 1)).mapM fun i =>
    if i % 2 = 0 then do
      let row ← tables.2.get? (i / 2)
      let v ← row.get? 0
      pure (-v)
    else do
      let row ← tables.1.get? ((i + 1) / 2)
      let v ← row.get? 0
      pure (-v)
  pure (c0 :: rest)

/-- The predicate "the estimate sequence is non-decreasing": the first
rejection test of `check_estimates_stability` (line 622), stated over all
adjacent index pairs. -/
def MonoP (l : List ℚ) : Prop := ∀ i, i + 1 < l.length → l.getD i 0 ≤ l.getD (i + 1) 0

/-- The predicate "no successive increment exceeds the preceding increment":
the second rejection test of `check_estimates_stability` (lines 623-624),
stated over all adjacent index triples. -/
def ConcP (l : List ℚ) : Prop :=
  ∀ i, i + 2 < l.length → l.getD (i + 2) 0 - l.getD (i + 1) 0 ≤ l.getD (i + 1) 0 - l.getD i 0

/-- The acceptance test of one degree iteration of
`optimal_continued_fraction` (lines 651-658): build the continued fraction
at degree `d` and check the stability of its extrapolated estimates. -/
def stableAt (cfa : ContinuedFractionApproximation) (counts_hist ps_coeffs : List ℚ)
    (d : ℕ) : Bool :=
  check_estimates_stability
    ((ContinuedFraction.make ps_coeffs cfa.diagonal_idx d).extrapolate_distinct
      counts_hist cfa.max_value cfa.step_size)

/-- Scaling every component of an evaluation state by a common factor (the
effect of one rescaling multiplication). -/
def smulES (R : ℚ) (s : EvalState) : EvalState :=
  ⟨R * s.current_num, R * s.prev_num1, R * s.prev_num2,
    R * s.current_denom, R * s.prev_denom1, R * s.prev_denom2⟩


lemma monoP_cons (x : ℚ) (l : List ℚ) :
    MonoP (x :: l) ↔ ((0 < l.length → x ≤ l.getD 0 0) ∧ MonoP l) := by
  constructor
  · intro H
    refine ⟨fun h0 => ?_, fun i hi => ?_⟩
    · simpa using H 0 (by simpa using h0)
    · simpa using H (i + 1) (by simpa using hi)
  · rintro ⟨h0, H⟩ i hi
    match i with
    | 0 => simpa using h0 (by simpa using hi)
    | j + 1 => simpa using H j (by simpa using hi)

lemma concP_cons (a b : ℚ) (l : List ℚ) :
    ConcP (a :: b :: l) ↔ ((0 < l.length → l.getD 0 0 - b ≤ b - a) ∧ ConcP (b :: l)) := by
  constructor
  · intro H
    refine ⟨fun h0 => ?_, fun i hi => ?_⟩
    · simpa using H 0 (by simp only [List.length_cons]; omega)
    · simp only [List.length_cons] at hi
      simpa using H (i + 1) (by simp only [List.length_cons]; omega)
  · rintro ⟨h0, H⟩ i hi
    simp only [List.length_cons] at hi
    match i with
    | 0 => simpa using h0 (by omega)
    | j + 1 => simpa using H j (by simp only [List.length_cons]; omega)

lemma checkRest_iff (t : List ℚ) : ∀ a b : ℚ,
    checkRest a b t = true ↔ (MonoP (b :: t) ∧ ConcP (a :: b :: t)) := by
  induction t with
  | nil =>
      intro a b
      constructor
      · intro _
        exact ⟨fun i hi => absurd hi (by simp), fun i hi => absurd hi (by simp)⟩
      · intro _; rfl
  | cons c t ih =>
      intro a b
      by_cases h : c < b ∨ c - b > b - a
      · simp only [checkRest, if_pos h]
        constructor
        · intro hf; exact absurd hf (by simp)
        · rintro ⟨hm, hc⟩
          have hbc : b ≤ c := by
            have := (monoP_cons b (c :: t)).mp hm
            simpa using this.1 (by simp)
          have hcb : c - b ≤ b - a := by
            have := (concP_cons a b (c :: t)).mp hc
            simpa using this.1 (by simp)
          rcases h with h | h <;> linarith
      · push_neg at h
        simp only [checkRest, if_neg (by push_neg; exact h : ¬(c < b ∨ c - b > b - a))]
        rw [ih b c, monoP_cons b (c :: t), concP_cons a b (c :: t)]
        constructor
        · rintro ⟨hm, hc⟩
          exact ⟨⟨fun _ => by simpa using h.1, hm⟩, fun _ => by simpa using h.2, hc⟩
        · rintro ⟨⟨_, hm⟩, _, hc⟩
          exact ⟨hm, hc⟩

lemma check_estimates_stability_iff (estimates : List ℚ) :
    check_estimates_stability estimates = true ↔ (MonoP estimates ∧ ConcP estimates) := by
  match estimates with
  | [] =>
      constructor
      · intro _
        exact ⟨fun i hi => absurd hi (by simp), fun i hi => absurd hi (by simp)⟩
      · intro _; rfl
  | [a] =>
      constructor
      · intro _
        exact ⟨fun i hi => absurd hi (by simp), fun i hi => absurd hi (by simp)⟩
      · intro _; rfl
  | a :: b :: t =>
      by_cases h : b < a
      · simp only [check_estimates_stability, if_pos h]
        constructor
        · intro hf; exact absurd hf (by simp)
        · rintro ⟨hm, _⟩
          have hab : a ≤ b := by
            have := (monoP_cons a (b :: t)).mp hm
            simpa using this.1 (by simp)
          linarith
      · simp only [check_estimates_stability, if_neg h]
        rw [checkRest_iff t a b, monoP_cons a (b :: t)]
        push_neg at h
        constructor
        · rintro ⟨hm, hc⟩; exact ⟨⟨fun _ => by simpa using h, hm⟩, hc⟩
        · rintro ⟨⟨_, hm⟩, hc⟩; exact ⟨hm, hc⟩

lemma optimalGo_char (cfa : ContinuedFractionApproximation) (counts_hist ps_coeffs : List ℚ) :
    ∀ n : ℕ,
      (optimalGo cfa counts_hist ps_coeffs n = Except.error () ↔
        ∀ d, MIN_ALLOWED_DEGREE ≤ d → d ≤ n → d % 2 = n % 2 →
          stableAt cfa counts_hist ps_coeffs d = false) ∧
      (∀ cf, optimalGo cfa counts_hist ps_coeffs n = Except.ok cf →
        ∃ d, MIN_ALLOWED_DEGREE ≤ d ∧ d ≤ n ∧ d % 2 = n % 2 ∧
          stableAt cfa counts_hist ps_coeffs d = true ∧
          cf = ContinuedFraction.make ps_coeffs cfa.diagonal_idx d ∧
          ∀ d', MIN_ALLOWED_DEGREE ≤ d' → d' ≤ n → d' % 2 = n % 2 →
            stableAt cfa counts_hist ps_coeffs d' = true → d' ≤ d) := by
  intro n
  induction n using Nat.strong_induction_on with
  | _ n ih =>
    rw [optimalGo]
    by_cases h6 : MIN_ALLOWED_DEGREE ≤ n
    · rw [dif_pos h6]
      by_cases hst : stableAt cfa counts_hist ps_coeffs n = true
      · rw [if_pos (by simpa [stableAt] using hst)]
        constructor
        · constructor
          · intro hcontra; exact absurd hcontra (by simp)
          · intro hall
            exact absurd (hall n h6 le_rfl rfl) (by simp [hst])
        · intro cf hcf
          refine ⟨n, h6, le_rfl, rfl, hst, ?_, fun d' _ hd' _ _ => hd'⟩
          simpa using hcf.symm
      · rw [if_neg (by simpa [stableAt] using hst)]
        have h2 : n - 2 < n := by simp only [MIN_ALLOWED_DEGREE] at h6; omega
        have ihn := ih (n - 2) h2
        have hMIN : MIN_ALLOWED_DEGREE = 6 := rfl
        constructor
        · rw [ihn.1]
          constructor
          · intro hall d hd1 hd2 hd3
            rcases Nat.lt_or_ge d n with hdn | hdn
            · exact hall d hd1 (by omega) (by omega)
            · have : d = n := le_antisymm hd2 hdn
              subst this
              simpa using hst
          · intro hall d hd1 hd2 hd3
            exact hall d hd1 (by omega) (by omega)
        · intro cf hcf
          obtain ⟨d, hd1, hd2, hd3, hd4, hd5, hd6⟩ := ihn.2 cf hcf
          refine ⟨d, hd1, by omega, by omega, hd4, hd5, ?_⟩
          intro d' h1 h2' h3 h4
          rcases Nat.lt_or_ge d' n with hdn | hdn
          · exact hd6 d' h1 (by omega) (by omega) h4
          · have : d' = n := le_antisymm h2' hdn
            subst this
            simp [hst] at h4
    · rw [dif_neg h6]
      constructor
      · constructor
        · intro _ d hd1 hd2 _
          exact absurd (le_trans hd1 hd2) h6
        · intro _; rfl
      · intro cf hcf; exact absurd hcf (by simp)
lemma smulES_one (s : EvalState) : smulES 1 s = s := by
  simp [smulES]

lemma get_rescale_value_pos (n d : ℚ) (h : |n| + |d| ≠ 0) : 0 < get_rescale_value n d := by
  have habs : 0 < |n| + |d| := lt_of_le_of_ne (by positivity) (Ne.symm h)
  unfold get_rescale_value
  by_cases h1 : |n| + |d| > 1 / TOLERANCE
  · simp only [if_pos h1]; positivity
  · rw [if_neg h1]
    by_cases h2 : |n| + |d| < TOLERANCE
    · simp only [if_pos h2]; positivity
    · rw [if_neg h2]; norm_num

lemma evalStep_smul (val c R : ℚ) (hR : 0 < R) (s : EvalState)
    (h : |s.prev_num1 + c * val * s.prev_num2| + |s.prev_denom1 + c * val * s.prev_denom2| ≠ 0) :
    ∃ r : ℚ, 0 < r ∧ evalStep val c (smulES R s) = smulES (r * R) (evalStepPlain val c s) := by
  have e1 : R * s.prev_num1 + c * val * (R * s.prev_num2) =
      R * (s.prev_num1 + c * val * s.prev_num2) := by ring
  have e2 : R * s.prev_denom1 + c * val * (R * s.prev_denom2) =
      R * (s.prev_denom1 + c * val * s.prev_denom2) := by ring
  have habs : |R * (s.prev_num1 + c * val * s.prev_num2)| +
      |R * (s.prev_denom1 + c * val * s.prev_denom2)| =
      R * (|s.prev_num1 + c * val * s.prev_num2| + |s.prev_denom1 + c * val * s.prev_denom2|) := by
    rw [abs_mul, abs_mul, abs_of_pos hR]; ring
  have hne : |R * (s.prev_num1 + c * val * s.prev_num2)| +
      |R * (s.prev_denom1 + c * val * s.prev_denom2)| ≠ 0 := by
    rw [habs]
    have hpos : 0 < |s.prev_num1 + c * val * s.prev_num2| +
        |s.prev_denom1 + c * val * s.prev_denom2| := lt_of_le_of_ne (by positivity) (Ne.symm h)
    positivity
  refine ⟨get_rescale_value (R * (s.prev_num1 + c * val * s.prev_num2))
    (R * (s.prev_denom1 + c * val * s.prev_denom2)), get_rescale_value_pos _ _ hne, ?_⟩
  simp only [evalStep, evalStepPlain, smulES, e1, e2, EvalState.mk.injEq]
  refine ⟨by ring, by ring, by ring, by ring, by ring, by ring⟩

lemma foldl_steps_smul (val : ℚ) (cs : List ℚ) : ∀ (s : EvalState) (R : ℚ), 0 < R →
    (∀ t ∈ (List.scanl (fun st c => evalStepPlain val c st) s cs).tail,
        |t.current_num| + |t.current_denom| ≠ 0) →
    ∃ R' : ℚ, 0 < R' ∧
      cs.foldl (fun st c => evalStep val c st) (smulES R s) =
        smulES R' (cs.foldl (fun st c => evalStepPlain val c st) s) := by
  induction cs with
  | nil => intro s R hR _; exact ⟨R, hR, rfl⟩
  | cons c cs ih =>
      intro s R hR hnv
      have htail : (List.scanl (fun st c => evalStepPlain val c st) s (c :: cs)).tail =
          List.scanl (fun st c => evalStepPlain val c st) (evalStepPlain val c s) cs := by
        simp [List.scanl]
      have hhead : evalStepPlain val c s ∈
          List.scanl (fun st c => evalStepPlain val c st) (evalStepPlain val c s) cs := by
        cases cs <;> simp [List.scanl]
      have hheadnv : |(evalStepPlain val c s).current_num| +
          |(evalStepPlain val c s).current_denom| ≠ 0 := by
        apply hnv; rw [htail]; exact hhead
      obtain ⟨r, hr, hstep⟩ := evalStep_smul val c R hR s (by simpa [evalStepPlain] using hheadnv)
      rw [List.foldl_cons, List.foldl_cons, hstep]
      apply ih (evalStepPlain val c s) (r * R) (by positivity)
      intro t ht
      apply hnv
      rw [htail]
      exact List.mem_of_mem_tail ht

lemma evaluate_on_diagonal_eq_norescale (cf_coeffs : List ℚ) (val : ℚ) (depth : ℕ)
    (h : ∀ t ∈ (List.scanl (fun st c => evalStepPlain val c st) (evalInit (cf_coeffs.getD 0 0))
          ((evalIndices depth).map fun i => cf_coeffs.getD i 0)).tail,
        |t.current_num| + |t.current_denom| ≠ 0) :
    evaluate_on_diagonal cf_coeffs val depth = evaluate_on_diagonal_norescale cf_coeffs val depth := by
  unfold evaluate_on_diagonal evaluate_on_diagonal_norescale
  have hmapR : (evalIndices depth).foldl (fun s i => evalStep val (cf_coeffs.getD i 0) s)
      (evalInit (cf_coeffs.getD 0 0)) =
      ((evalIndices depth).map fun i => cf_coeffs.getD i 0).foldl
        (fun st c => evalStep val c st) (evalInit (cf_coeffs.getD 0 0)) := by
    rw [List.foldl_map]
  have hmapP : (evalIndices depth).foldl (fun s i => evalStepPlain val (cf_coeffs.getD i 0) s)
      (evalInit (cf_coeffs.getD 0 0)) =
      ((evalIndices depth).map fun i => cf_coeffs.getD i 0).foldl
        (fun st c => evalStepPlain val c st) (evalInit (cf_coeffs.getD 0 0)) := by
    rw [List.foldl_map]
  rw [hmapR, hmapP]
  obtain ⟨R', hR', heq⟩ := foldl_steps_smul val ((evalIndices depth).map fun i => cf_coeffs.getD i 0)
    (evalInit (cf_coeffs.getD 0 0)) 1 one_pos (by simpa using h)
  rw [smulES_one] at heq
  rw [heq]
  show val * (R' * _) / (R' * _) = _
  rw [show val * (R' * (((evalIndices depth).map fun i => cf_coeffs.getD i 0).foldl
      (fun st c => evalStepPlain val c st) (evalInit (cf_coeffs.getD 0 0))).current_num) =
      R' * (val * (((evalIndices depth).map fun i => cf_coeffs.getD i 0).foldl
      (fun st c => evalStepPlain val c st) (evalInit (cf_coeffs.getD 0 0))).current_num) by ring,
    mul_div_mul_left _ _ (ne_of_gt hR')]

lemma extrapLoop_get (f : ℚ → ℚ) (hist_sum max_value step_size : ℚ) (hstep : 0 < step_size) :
    ∀ (k fuel : ℕ) (t : ℚ), k < fuel → t + k * step_size ≤ max_value →
      (extrapLoop f hist_sum max_value step_size fuel t).get? k =
        some (hist_sum + f (t + k * step_size)) := by
  intro k
  induction k with
  | zero =>
      intro fuel t hkf ht
      match fuel with
      | fuel + 1 =>
        rw [extrapLoop, if_pos (by push_cast at ht; linarith)]
        push_cast
        simp
  | succ k ih =>
      intro fuel t hkf ht
      match fuel with
      | fuel + 1 =>
        have hnn : (0 : ℚ) ≤ ((k : ℚ) + 1) * step_size := by positivity
        have ht0 : t ≤ max_value := by push_cast at ht; linarith
        rw [extrapLoop, if_pos ht0]
        have harg : t + step_size + (k : ℚ) * step_size = t + ((k : ℕ) + 1 : ℚ) * step_size := by
          ring
        have := ih fuel (t + step_size) (by omega) (by push_cast at ht; linarith)
        rw [List.get?_cons_succ, this, harg]
        push_cast
        ring_nf

lemma gridFuel_lt (max_value step_size : ℚ) (hstep : 0 < step_size) (k : ℕ)
    (h : ((k : ℚ) + 1) * step_size ≤ max_value) : k < gridFuel max_value step_size := by
  have h1 : ((k : ℚ) + 1) ≤ max_value / step_size := (le_div_iff₀ hstep).mpr h
  have h2 : ((k : ℤ) + 1) ≤ ⌊max_value / step_size⌋ := by
    rw [Int.le_floor]
    push_cast
    exact h1
  have h3 : (0 : ℤ) ≤ ⌊max_value / step_size⌋ := le_trans (by omega) h2
  have h4 : k + 1 ≤ (⌊max_value / step_size⌋).toNat := by
    rw [Int.le_toNat h3]
    push_cast
    omega
  unfold gridFuel
  omega

lemma lbGo_spec (perDeg : ℕ → ℚ) : ∀ (n : ℕ) (best : ℚ),
    lbGo perDeg n best ≤ best ∧
    (∀ d, MIN_ALLOWED_DEGREE < d → d ≤ n → d % 2 = n % 2 → lbGo perDeg n best ≤ perDeg d) ∧
    (lbGo perDeg n best = best ∨
      ∃ d, MIN_ALLOWED_DEGREE < d ∧ d ≤ n ∧ d % 2 = n % 2 ∧ lbGo perDeg n best = perDeg d) := by
  intro n
  induction n using Nat.strong_induction_on with
  | _ n ih =>
    intro best
    rw [lbGo]
    by_cases h6 : MIN_ALLOWED_DEGREE < n
    · rw [dif_pos h6]
      have h6' : 6 < n := h6
      obtain ⟨ha, hb, hc⟩ := ih (n - 2) (by omega) (min best (perDeg n))
      refine ⟨le_trans ha (min_le_left _ _), ?_, ?_⟩
      · intro d hd1 hd2 hd3
        have hd1' : 6 < d := hd1
        rcases Nat.lt_or_ge d n with hdn | hdn
        · exact hb d hd1 (by omega) (by omega)
        · have : d = n := le_antisymm hd2 hdn
          subst this
          exact le_trans ha (min_le_right _ _)
      · rcases hc with hc | ⟨d, hd1, hd2, hd3, hd4⟩
        · rcases le_total best (perDeg n) with hmn | hmn
          · left; rw [hc, min_eq_left hmn]
          · right; exact ⟨n, h6, le_rfl, rfl, by rw [hc, min_eq_right hmn]⟩
        · have hd1' : 6 < d := hd1
          right
          exact ⟨d, hd1, by omega, by omega, hd4⟩
    · rw [dif_neg h6]
      exact ⟨le_rfl, fun d hd1 hd2 _ => absurd (lt_of_lt_of_le hd1 hd2) h6, Or.inl rfl⟩

lemma psCoeffsOfHist_zero_tail (counts_hist : List ℚ) (m : ℕ)
    (h : ∀ i, counts_hist.getD (i + 1) 0 = 0) :
    psCoeffsOfHist counts_hist m = List.replicate m 0 := by
  unfold psCoeffsOfHist
  rw [List.eq_replicate_iff]
  constructor
  · simp
  · intro b hb
    obtain ⟨j, _, rfl⟩ := List.mem_map.mp hb
    rw [h j, zero_mul]

lemma qdTables_zero (m : ℕ) : ∀ i j : ℕ,
    (qdTables (List.replicate m (0 : ℚ)) i).1 j = 0 ∧
    (qdTables (List.replicate m (0 : ℚ)) i).2 j = 0 := by
  intro i
  induction i using Nat.strong_induction_on with
  | _ i ih =>
    match i with
    | 0 => intro j; exact ⟨rfl, rfl⟩
    | 1 =>
        intro j
        constructor
        · show (if j < (List.replicate m (0 : ℚ)).length then _ / _ else 0) = 0
          split
          · simp
          · rfl
        · show (if j < (List.replicate m (0 : ℚ)).length - 1 then _ else 0) = 0
          split
          · have h1 := (show (1 : ℕ) < 1 + 1 by omega)
            simp only [qdTables]
            split <;> split <;> simp
          · rfl
    | i + 2 =>
        intro j
        have ihp := ih (i + 1) (by omega)
        constructor
        · show (if j < (List.replicate m (0 : ℚ)).length then
              (qdTables _ (i + 1)).1 (j + 1) * (qdTables _ (i + 1)).2 (j + 1) /
                (qdTables _ (i + 1)).2 j else 0) = 0
          split
          · rw [(ihp (j + 1)).1, zero_mul, zero_div]
          · rfl
        · show (if j < (List.replicate m (0 : ℚ)).length then _ else 0) = 0
          split
          · have hfun : ∀ j' : ℕ, (if j' < (List.replicate m (0 : ℚ)).length then
                (qdTables (List.replicate m (0 : ℚ)) (i + 1)).1 (j' + 1) *
                  (qdTables (List.replicate m (0 : ℚ)) (i + 1)).2 (j' + 1) /
                  (qdTables (List.replicate m (0 : ℚ)) (i + 1)).2 j' else 0) = 0 := by
              intro j'
              split
              · rw [(ihp (j' + 1)).1, zero_mul, zero_div]
              · rfl
            simp only [hfun, (ihp (j + 1)).2]
            simp
          · rfl
lemma getD_eq_zero_of_all_zero (l : List ℚ) (h : ∀ x ∈ l, x = 0) (i : ℕ) : l.getD i 0 = 0 := by
  by_cases hi : i < l.length
  · rw [List.getD_eq_getElem l 0 hi]
    exact h _ (List.getElem_mem hi)
  · rw [List.getD_eq_default l 0 (by omega)]

lemma quotdiff_algorithm_replicate_zero (m : ℕ) :
    ∀ x ∈ quotdiff_algorithm (List.replicate m (0 : ℚ)), x = 0 := by
  intro x hx
  unfold quotdiff_algorithm at hx
  rcases List.mem_cons.mp hx with hx | hx
  · rw [hx]
    exact getD_eq_zero_of_all_zero _ (by simp [List.eq_of_mem_replicate]) 0
  · obtain ⟨i, _, rfl⟩ := List.mem_map.mp hx
    by_cases hpar : i % 2 = 0
    · rw [if_pos hpar, (qdTables_zero m (i / 2) 0).2, neg_zero]
    · rw [if_neg hpar, (qdTables_zero m ((i + 1) / 2) 0).1, neg_zero]

lemma reciprocal_fold_zero (coeffs : List ℚ) (hc0 : coeffs.getD 0 0 = 0) :
    ∀ (l : List ℕ) (acc : List ℚ), (∀ x ∈ acc, x = 0) →
      ∀ x ∈ l.foldl (fun acc i =>
          acc ++ [-(((List.range i).foldl
              (fun holding_val j => holding_val + coeffs.getD (i - j) 0 * acc.getD j 0) 0) /
            coeffs.getD 0 0)]) acc, x = 0 := by
  intro l
  induction l with
  | nil => intro acc hacc x hx; exact hacc x hx
  | cons i l ih =>
      intro acc hacc x hx
      rw [List.foldl_cons] at hx
      refine ih _ ?_ x hx
      intro y hy
      rcases List.mem_append.mp hy with hy | hy
      · exact hacc y hy
      · rw [List.mem_singleton] at hy
        rw [hy, hc0, div_zero, neg_zero]

lemma reciprocalCoeffs_replicate_zero (m : ℕ) :
    ∀ x ∈ reciprocalCoeffs (List.replicate m (0 : ℚ)), x = 0 := by
  have hc0 : (List.replicate m (0 : ℚ)).getD 0 0 = 0 :=
    getD_eq_zero_of_all_zero _ (by simp [List.eq_of_mem_replicate]) 0
  unfold reciprocalCoeffs
  apply reciprocal_fold_zero _ hc0
  intro y hy
  rw [List.mem_singleton] at hy
  rw [hy, hc0, div_zero]

lemma make_replicate_zero (m : ℕ) (di : ℤ) (dg : ℕ) :
    (∀ x ∈ (ContinuedFraction.make (List.replicate m (0 : ℚ)) di dg).cf_coeffs, x = 0) ∧
    (∀ x ∈ (ContinuedFraction.make (List.replicate m (0 : ℚ)) di dg).offset_coeffs, x = 0) ∧
    (ContinuedFraction.make (List.replicate m (0 : ℚ)) di dg).diagonal_idx = di ∧
    (ContinuedFraction.make (List.replicate m (0 : ℚ)) di dg).degree = dg := by
  unfold ContinuedFraction.make
  by_cases h0 : di = 0
  · rw [if_pos h0]
    exact ⟨quotdiff_algorithm_replicate_zero m, by simp, rfl, rfl⟩
  · rw [if_neg h0]
    by_cases hpos : di > 0
    · rw [if_pos hpos]
      refine ⟨?_, ?_, rfl, rfl⟩
      · intro x hx
        unfold quotdiff_above_diagonal at hx
        exact List.eq_of_mem_replicate (List.mem_of_mem_take hx)
      · intro x hx
        unfold quotdiff_above_diagonal at hx
        rw [List.drop_replicate] at hx
        exact quotdiff_algorithm_replicate_zero _ x hx
    · rw [if_neg hpos]
      have hrec : reciprocalCoeffs (List.replicate m (0 : ℚ)) =
          List.replicate (reciprocalCoeffs (List.replicate m (0 : ℚ))).length 0 := by
        rw [List.eq_replicate_iff]
        exact ⟨rfl, reciprocalCoeffs_replicate_zero m⟩
      refine ⟨?_, ?_, rfl, rfl⟩
      · intro x hx
        have hx' : x ∈ quotdiff_algorithm (List.drop (-di).toNat
            (reciprocalCoeffs (List.replicate m (0 : ℚ)))) := hx
        rw [hrec, List.drop_replicate] at hx'
        exact quotdiff_algorithm_replicate_zero _ x hx'
      · intro x hx
        have hx' : x ∈ List.take (-di).toNat (reciprocalCoeffs (List.replicate m (0 : ℚ))) := hx
        exact reciprocalCoeffs_replicate_zero m x (List.mem_of_mem_take hx')

lemma evalfold_zero_nums (val : ℚ) (cf_coeffs : List ℚ) (l : List ℕ) :
    ∀ s : EvalState, s.current_num = 0 → s.prev_num1 = 0 → s.prev_num2 = 0 →
      (l.foldl (fun s i => evalStep val (cf_coeffs.getD i 0) s) s).current_num = 0 ∧
      (l.foldl (fun s i => evalStep val (cf_coeffs.getD i 0) s) s).prev_num1 = 0 ∧
      (l.foldl (fun s i => evalStep val (cf_coeffs.getD i 0) s) s).prev_num2 = 0 := by
  induction l with
  | nil => intro s h1 h2 h3; exact ⟨h1, h2, h3⟩
  | cons i l ih =>
      intro s h1 h2 h3
      rw [List.foldl_cons]
      apply ih <;> simp [evalStep, h2, h3]

lemma offsetPart_zero (offset_coeffs : List ℚ) (h : ∀ x ∈ offset_coeffs, x = 0)
    (val : ℚ) (depth : ℕ) : offsetPart offset_coeffs val depth = 0 := by
  unfold offsetPart
  generalize List.range (min offset_coeffs.length depth) = l
  induction l using List.reverseRecOn with
  | nil => rfl
  | append_singleton l i ih =>
      rw [List.foldl_append, ih, List.foldl_cons, List.foldl_nil,
        getD_eq_zero_of_all_zero _ h i, zero_mul, add_zero]

lemma eval_zero_cf (cf : ContinuedFraction) (h1 : ∀ x ∈ cf.cf_coeffs, x = 0)
    (h2 : ∀ x ∈ cf.offset_coeffs, x = 0) (val : ℚ) : cf.eval val = 0 := by
  have hc0 : cf.cf_coeffs.getD 0 0 = 0 := getD_eq_zero_of_all_zero _ h1 0
  have hnum := evalfold_zero_nums val cf.cf_coeffs (evalIndices cf.degree)
    (evalInit (cf.cf_coeffs.getD 0 0)) rfl hc0 rfl
  unfold ContinuedFraction.eval
  by_cases hpos : cf.diagonal_idx > 0
  · rw [if_pos hpos]
    unfold evaluate_above_diagonal
    rw [offsetPart_zero _ h2]
    simp only [hnum.1, mul_zero, zero_div, add_zero]
  · rw [if_neg hpos]
    by_cases hneg : cf.diagonal_idx < 0
    · rw [if_pos hneg]
      unfold evaluate_below_diagonal
      rw [offsetPart_zero _ h2]
      simp only [hnum.1, mul_zero, zero_div, add_zero, div_zero]
    · rw [if_neg hneg]
      unfold evaluate_on_diagonal
      simp only [hnum.1, mul_zero, zero_div]

lemma extrapLoop_all_eq (f : ℚ → ℚ) (S max_value step_size : ℚ) (hf : ∀ t, f t = 0) :
    ∀ (fuel : ℕ) (t : ℚ), ∀ x ∈ extrapLoop f S max_value step_size fuel t, x = S := by
  intro fuel
  induction fuel with
  | zero => intro t x hx; exact absurd hx (by simp [extrapLoop])
  | succ fuel ih =>
      intro t x hx
      rw [extrapLoop] at hx
      split at hx
      · rcases List.mem_cons.mp hx with hx | hx
        · rw [hx, hf, add_zero]
        · exact ih _ x hx
      · exact absurd hx (by simp)

lemma stable_of_const (S : ℚ) (l : List ℚ) (h : ∀ x ∈ l, x = S) :
    check_estimates_stability l = true := by
  rw [check_estimates_stability_iff]
  have hg : ∀ i, i < l.length → l.getD i 0 = S := by
    intro i hi
    rw [List.getD_eq_getElem l 0 hi]
    exact h _ (List.getElem_mem hi)
  constructor
  · intro i hi
    rw [hg i (by omega), hg (i + 1) (by omega)]
  · intro i hi
    rw [hg i (by omega), hg (i + 1) (by omega), hg (i + 2) (by omega)]

lemma optimal_ok_of_zero_tail (cfa : ContinuedFractionApproximation) (counts_hist : List ℚ)
    (hzero : ∀ i, counts_hist.getD (i + 1) 0 = 0)
    (h6 : MIN_ALLOWED_DEGREE ≤ cfa.max_terms - cfa.max_terms % 2) :
    cfa.optimal_continued_fraction counts_hist =
      Except.ok (ContinuedFraction.make
        (psCoeffsOfHist counts_hist (cfa.max_terms - cfa.max_terms % 2)) cfa.diagonal_idx
        (cfa.max_terms - cfa.max_terms % 2)) := by
  have hps := psCoeffsOfHist_zero_tail counts_hist (cfa.max_terms - cfa.max_terms % 2) hzero
  have hzcf := make_replicate_zero (cfa.max_terms - cfa.max_terms % 2) cfa.diagonal_idx
    (cfa.max_terms - cfa.max_terms % 2)
  rw [← hps] at hzcf
  have hstab : check_estimates_stability
      ((ContinuedFraction.make (psCoeffsOfHist counts_hist (cfa.max_terms - cfa.max_terms % 2))
          cfa.diagonal_idx (cfa.max_terms - cfa.max_terms % 2)).extrapolate_distinct
        counts_hist cfa.max_value cfa.step_size) = true := by
    apply stable_of_const counts_hist.sum
    intro x hx
    unfold ContinuedFraction.extrapolate_distinct at hx
    rcases List.mem_cons.mp hx with hx | hx
    · exact hx
    · exact extrapLoop_all_eq _ _ _ _ (eval_zero_cf _ hzcf.1 hzcf.2.1) _ _ x hx
  show optimalGo cfa counts_hist
      (psCoeffsOfHist counts_hist (cfa.max_terms - cfa.max_terms % 2))
      (cfa.max_terms - cfa.max_terms % 2) = _
  rw [optimalGo]
  rw [dif_pos h6]
  rw [if_pos hstab]
lemma locateIter_bracket (cf : ContinuedFraction) (lo hi : ℚ) (s : LocState)
    (h1 : lo ≤ s.val_low) (h2 : s.val_low ≤ s.val_high) (h3 : s.val_high ≤ hi) :
    lo ≤ (locateIter cf s).val_low ∧ (locateIter cf s).val_low ≤ (locateIter cf s).val_high ∧
    (locateIter cf s).val_high ≤ hi ∧ lo ≤ (locateIter cf s).val_mid ∧
    (locateIter cf s).val_mid ≤ hi := by
  have hml : s.val_low ≤ (s.val_low + s.val_high) / 2 := by linarith
  have hmh : (s.val_low + s.val_high) / 2 ≤ s.val_high := by linarith
  by_cases hk : (cf.complex_deriv ((s.val_low + s.val_high) / 2) > 0 ∧ s.deriv_low < 0) ∨
      (cf.complex_deriv ((s.val_low + s.val_high) / 2) < 0 ∧ s.deriv_low > 0)
  · simp only [locateIter, if_pos hk]
    exact ⟨h1, by linarith, by linarith, by linarith, by linarith⟩
  · simp only [locateIter, if_neg hk]
    exact ⟨by linarith, by linarith, h3, by linarith, by linarith⟩

lemma locateLoop_bracket (cf : ContinuedFraction) (lo hi : ℚ) :
    ∀ (fuel : ℕ) (s : LocState), lo ≤ s.val_low → s.val_low ≤ s.val_high → s.val_high ≤ hi →
      lo ≤ s.val_mid → s.val_mid ≤ hi →
      lo ≤ (locateLoop cf fuel s).val_mid ∧ (locateLoop cf fuel s).val_mid ≤ hi := by
  intro fuel
  induction fuel with
  | zero => intro s _ _ _ h4 h5; exact ⟨h4, h5⟩
  | succ fuel ih =>
      intro s h1 h2 h3 h4 h5
      rw [locateLoop]
      by_cases hcond : s.diff > TOLERANCE ∧ movement s.val_low s.val_high > TOLERANCE
      · rw [if_pos hcond]
        obtain ⟨g1, g2, g3, g4, g5⟩ := locateIter_bracket cf lo hi s h1 h2 h3
        exact ih _ g1 g2 g3 g4 g5
      · rw [if_neg hcond]
        exact ⟨h4, h5⟩

lemma dblMax_gt_TOLERANCE : dblMax > TOLERANCE := by
  norm_num [dblMax, TOLERANCE]

lemma locateLoop_bracket_pos (cf : ContinuedFraction) (lo hi : ℚ) (fuel : ℕ) (s : LocState)
    (hfuel : 1 ≤ fuel) (hcond : s.diff > TOLERANCE ∧ movement s.val_low s.val_high > TOLERANCE)
    (h1 : lo ≤ s.val_low) (h2 : s.val_low ≤ s.val_high) (h3 : s.val_high ≤ hi) :
    lo ≤ (locateLoop cf fuel s).val_mid ∧ (locateLoop cf fuel s).val_mid ≤ hi := by
  obtain ⟨f, rfl⟩ : ∃ f, fuel = f + 1 := ⟨fuel - 1, by omega⟩
  rw [locateLoop, if_pos hcond]
  obtain ⟨g1, g2, g3, g4, g5⟩ := locateIter_bracket cf lo hi s h1 h2 h3
  exact locateLoop_bracket cf lo hi f _ g1 g2 g3 g4 g5

lemma locate_zero_in_bracket (cf : ContinuedFraction) (fuel : ℕ) (val prev_val : ℚ)
    (hlt : prev_val < val) (hmov : movement prev_val val > TOLERANCE) (hfuel : 1 ≤ fuel) :
    prev_val ≤ locate_zero_cf_deriv cf fuel val prev_val ∧
    locate_zero_cf_deriv cf fuel val prev_val ≤ val := by
  unfold locate_zero_cf_deriv
  exact locateLoop_bracket_pos cf prev_val val fuel _ hfuel
    ⟨dblMax_gt_TOLERANCE, hmov⟩ le_rfl (le_of_lt hlt) le_rfl

lemma locateLoop_exit (cf : ContinuedFraction) (fuel : ℕ) (s : LocState)
    (h : ¬(s.diff > TOLERANCE ∧ movement s.val_low s.val_high > TOLERANCE)) :
    locateLoop cf fuel s = s := by
  cases fuel with
  | zero => rfl
  | succ fuel => rw [locateLoop, if_neg h]

lemma localMaxLoop_exit (cfa : ContinuedFractionApproximation) (lfuel : ℕ)
    (cf : ContinuedFraction) (fuel : ℕ) (val current_max : ℚ)
    (h : ¬ val ≤ cfa.max_value) :
    localMaxLoop cfa lfuel cf fuel val current_max = current_max := by
  cases fuel with
  | zero => rfl
  | succ fuel => rw [localMaxLoop, if_neg h]

lemma eval_at_zero (cf : ContinuedFraction) : cf.eval 0 = 0 := by
  unfold ContinuedFraction.eval evaluate_above_diagonal evaluate_below_diagonal
    evaluate_on_diagonal
  simp

lemma gridFuel_half_one : gridFuel (1 / 2 : ℚ) 1 = 1 := by
  unfold gridFuel
  norm_num

lemma local_max_eq_loop (cfa : ContinuedFractionApproximation) (lfuel : ℕ)
    (cf : ContinuedFraction) (upper_bound deriv_upper : ℚ) :
    cfa.local_max lfuel cf upper_bound deriv_upper =
      localMaxLoop cfa lfuel cf (gridFuel cfa.max_value cfa.step_size) cfa.step_size
        (cf.eval 0) := rfl

/-- C1: the claim fails on the code.  At `ps_cf = [1, 2, 3, 4]` and diagonal
index `1` the constructor stores the first coefficient verbatim into
`cf_coeffs` and the quotient-difference output of the suffix `[2, 3, 4]`
into `offset_coeffs` - the opposite of the claimed assignment - because it
passes its two output members to `quotdiff_above_diagonal` in swapped
order. -/
theorem C1_above_diagonal_constructor_swap :
    (ContinuedFraction.make [1, 2, 3, 4] 1 2).cf_coeffs = [1] ∧
    (ContinuedFraction.make [1, 2, 3, 4] 1 2).offset_coeffs = quotdiff_algorithm [2, 3, 4] ∧
    quotdiff_algorithm [2, 3, 4] = [2, -(3 / 2 : ℚ), 1 / 6] := by
  refine ⟨?_, ?_, ?_⟩ <;>
    norm_num [ContinuedFraction.make, quotdiff_above_diagonal, quotdiff_algorithm,
      qdTables, List.range']

/-- C2: the claimed invariant fails on the code.  At `ps_cf = [1, 2, 3, 4]`
and diagonal index `1` the constructed fraction holds three offset
coefficients (the quotient-difference output of the three-element suffix,
stored there by the swapped constructor call), not `|diagonal index| = 1`. -/
theorem C2_offset_count_mismatch :
    (ContinuedFraction.make [1, 2, 3, 4] 1 2).offset_coeffs.length = 3 ∧
    (ContinuedFraction.make [1, 2, 3, 4] 1 2).offset_coeffs.length ≠
      (ContinuedFraction.make [1, 2, 3, 4] 1 2).diagonal_idx.natAbs := by
  refine ⟨?_, ?_⟩ <;>
    norm_num [ContinuedFraction.make, quotdiff_above_diagonal, quotdiff_algorithm,
      qdTables, List.range']

/-- C3: `optimal_continued_fraction` rounds `max_terms` down to the nearest
even value `m`, tries the even degrees from `m` down to the minimum allowed
degree `6`, returns the continued fraction of the largest degree whose
extrapolated estimates pass the stability check, and signals a fitting
failure exactly when no degree in that range passes. -/
theorem C3_optimal_degree_selection (cfa : ContinuedFractionApproximation)
    (counts_hist : List ℚ) (hlen : cfa.max_terms + 1 ≤ counts_hist.length) :
    ((cfa.max_terms - cfa.max_terms % 2) % 2 = 0 ∧
      cfa.max_terms - cfa.max_terms % 2 ≤ cfa.max_terms ∧
      cfa.max_terms < (cfa.max_terms - cfa.max_terms % 2) + 2) ∧
    (cfa.optimal_continued_fraction counts_hist = Except.error () ↔
      ∀ d, MIN_ALLOWED_DEGREE ≤ d → d ≤ cfa.max_terms - cfa.max_terms % 2 → d % 2 = 0 →
        stableAt cfa counts_hist
          (psCoeffsOfHist counts_hist (cfa.max_terms - cfa.max_terms % 2)) d = false) ∧
    (∀ cf, cfa.optimal_continued_fraction counts_hist = Except.ok cf →
      ∃ d, MIN_ALLOWED_DEGREE ≤ d ∧ d ≤ cfa.max_terms - cfa.max_terms % 2 ∧ d % 2 = 0 ∧
        stableAt cfa counts_hist
          (psCoeffsOfHist counts_hist (cfa.max_terms - cfa.max_terms % 2)) d = true ∧
        cf = ContinuedFraction.make
          (psCoeffsOfHist counts_hist (cfa.max_terms - cfa.max_terms % 2))
          cfa.diagonal_idx d ∧
        ∀ d', MIN_ALLOWED_DEGREE ≤ d' → d' ≤ cfa.max_terms - cfa.max_terms % 2 →
          d' % 2 = 0 →
          stableAt cfa counts_hist
            (psCoeffsOfHist counts_hist (cfa.max_terms - cfa.max_terms % 2)) d' = true →
          d' ≤ d) := by
  have hm0 : (cfa.max_terms - cfa.max_terms % 2) % 2 = 0 := by omega
  have hopt : cfa.optimal_continued_fraction counts_hist =
      optimalGo cfa counts_hist
        (psCoeffsOfHist counts_hist (cfa.max_terms - cfa.max_terms % 2))
        (cfa.max_terms - cfa.max_terms % 2) := rfl
  have hchar := optimalGo_char cfa counts_hist
    (psCoeffsOfHist counts_hist (cfa.max_terms - cfa.max_terms % 2))
    (cfa.max_terms - cfa.max_terms % 2)
  refine ⟨⟨hm0, by omega, by omega⟩, ?_, ?_⟩
  · rw [hopt, hchar.1]
    constructor
    · intro hall d h1 h2 h3
      exact hall d h1 h2 (by omega)
    · intro hall d h1 h2 h3
      exact hall d h1 h2 (by omega)
  · intro cf hcf
    obtain ⟨d, h1, h2, h3, h4, h5, h6⟩ := hchar.2 cf (by rw [← hopt]; exact hcf)
    exact ⟨d, h1, h2, by omega, h4, h5, fun d' a b c e => h6 d' a b (by omega) e⟩

/-- Witness for C3 at the histogram `[0, 1, 0, 0, 0, 0, 0, 0]` with
`max_terms = 7` (odd, rounded down to 6), unit step and maximum value 2. -/
theorem C3_optimal_degree_selection_witness :
    (((7 : ℕ) - 7 % 2) % 2 = 0 ∧ 7 - 7 % 2 ≤ 7 ∧ 7 < (7 - 7 % 2) + 2) ∧
    ((ContinuedFractionApproximation.mk 0 7 1 2).optimal_continued_fraction
        [0, 1, 0, 0, 0, 0, 0, 0] = Except.error () ↔
      ∀ d, MIN_ALLOWED_DEGREE ≤ d → d ≤ 7 - 7 % 2 → d % 2 = 0 →
        stableAt (ContinuedFractionApproximation.mk 0 7 1 2) [0, 1, 0, 0, 0, 0, 0, 0]
          (psCoeffsOfHist [0, 1, 0, 0, 0, 0, 0, 0] (7 - 7 % 2)) d = false) ∧
    (∀ cf, (ContinuedFractionApproximation.mk 0 7 1 2).optimal_continued_fraction
        [0, 1, 0, 0, 0, 0, 0, 0] = Except.ok cf →
      ∃ d, MIN_ALLOWED_DEGREE ≤ d ∧ d ≤ 7 - 7 % 2 ∧ d % 2 = 0 ∧
        stableAt (ContinuedFractionApproximation.mk 0 7 1 2) [0, 1, 0, 0, 0, 0, 0, 0]
          (psCoeffsOfHist [0, 1, 0, 0, 0, 0, 0, 0] (7 - 7 % 2)) d = true ∧
        cf = ContinuedFraction.make (psCoeffsOfHist [0, 1, 0, 0, 0, 0, 0, 0] (7 - 7 % 2))
          (ContinuedFractionApproximation.mk 0 7 1 2).diagonal_idx d ∧
        ∀ d', MIN_ALLOWED_DEGREE ≤ d' → d' ≤ 7 - 7 % 2 → d' % 2 = 0 →
          stableAt (ContinuedFractionApproximation.mk 0 7 1 2) [0, 1, 0, 0, 0, 0, 0, 0]
            (psCoeffsOfHist [0, 1, 0, 0, 0, 0, 0, 0] (7 - 7 % 2)) d' = true →
          d' ≤ d) :=
  C3_optimal_degree_selection ⟨0, 7, 1, 2⟩ [0, 1, 0, 0, 0, 0, 0, 0] (by decide)

/-- C4: `check_estimates_stability` returns true exactly when the estimate
sequence is non-decreasing and every successive increment is no larger than
the preceding one, and it returns the claimed values on the three example
sequences. -/
theorem C4_stability_check_characterization :
    (∀ estimates : List ℚ,
      check_estimates_stability estimates = true ↔ (MonoP estimates ∧ ConcP estimates)) ∧
    check_estimates_stability [10, 12, 13, 13.5] = true ∧
    check_estimates_stability [10, 12, 11] = false ∧
    check_estimates_stability [10, 12, 15, 19] = false := by
  refine ⟨check_estimates_stability_iff, ?_, ?_, ?_⟩ <;>
    norm_num [check_estimates_stability, checkRest]

/-- Counterexample to C5 as stated: at `cf_coeffs = [1, 0, 1, 1]` and
evaluation point `-1` the numerator and denominator vanish simultaneously
at the second step, the rescale factor is the reciprocal of zero, and the
rescaled recurrence no longer agrees with the recurrence run without
rescaling (0 versus -1 in the exact-arithmetic model). -/
theorem C5_rescaling_counterexample :
    evaluate_on_diagonal [1, 0, 1, 1] (-1) 4 ≠
      evaluate_on_diagonal_norescale [1, 0, 1, 1] (-1) 4 := by
  norm_num [evaluate_on_diagonal, evaluate_on_diagonal_norescale, evalIndices, List.range',
    evalStep, evalStepPlain, evalInit, get_rescale_value, TOLERANCE]

/-- C5 (amended): provided `|num| + |den|` never vanishes along the
recurrence (so every rescale factor is nonzero), the rescaled Euler
recurrence of `evaluate_on_diagonal` yields exactly the same final ratio,
and hence the same evaluation result, as the recurrence with no rescaling,
in exact arithmetic. -/
theorem C5_rescaling_invariance (cf_coeffs : List ℚ) (val : ℚ) (depth : ℕ)
    (h : ∀ t ∈ (List.scanl (fun st c => evalStepPlain val c st)
          (evalInit (cf_coeffs.getD 0 0))
          ((evalIndices depth).map fun i => cf_coeffs.getD i 0)).tail,
        |t.current_num| + |t.current_denom| ≠ 0) :
    evaluate_on_diagonal cf_coeffs val depth =
      evaluate_on_diagonal_norescale cf_coeffs val depth :=
  evaluate_on_diagonal_eq_norescale cf_coeffs val depth h

/-- Witness for C5 at `cf_coeffs = [1, 1]`, point `1`, depth `2`, where the
single recurrence step keeps `|num| + |den| = 3`. -/
theorem C5_rescaling_invariance_witness :
    evaluate_on_diagonal [1, 1] 1 2 = evaluate_on_diagonal_norescale [1, 1] 1 2 :=
  C5_rescaling_invariance [1, 1] 1 2 (by
    intro t ht
    simp only [evalIndices, List.range', List.map, List.getD, List.scanl, List.tail,
      evalStepPlain, evalInit, List.mem_singleton] at ht
    subst ht
    norm_num)

/-- C6: for a positive step size, the extrapolated sequence has the
histogram sum as its first element, and its element at each grid index
`k >= 1` with `k * step_size <= max_value` is the histogram sum plus the
evaluator at `k * step_size`. -/
theorem C6_extrapolate_grid (cf : ContinuedFraction) (counts_hist : List ℚ)
    (max_value step_size : ℚ) (hstep : 0 < step_size) :
    (cf.extrapolate_distinct counts_hist max_value step_size).get? 0 =
      some counts_hist.sum ∧
    ∀ k : ℕ, 1 ≤ k → (k : ℚ) * step_size ≤ max_value →
      (cf.extrapolate_distinct counts_hist max_value step_size).get? k =
        some (counts_hist.sum + cf.eval ((k : ℚ) * step_size)) := by
  constructor
  · rfl
  · intro k hk hks
    obtain ⟨j, rfl⟩ : ∃ j, k = j + 1 := ⟨k - 1, by omega⟩
    have hj : j < gridFuel max_value step_size := by
      apply gridFuel_lt max_value step_size hstep
      push_cast at hks
      linarith
    have harg : step_size + (j : ℚ) * step_size = ((j : ℚ) + 1) * step_size := by ring
    have := extrapLoop_get cf.eval counts_hist.sum max_value step_size hstep j
      (gridFuel max_value step_size) step_size hj
      (by rw [harg]; push_cast at hks; linarith)
    show (_ :: extrapLoop _ _ _ _ _ _).get? (j + 1) = _
    rw [List.get?_cons_succ, this, harg]
    push_cast
    ring_nf

/-- Witness for C6 at a fixed continued fraction, histogram `[2, 3]`, unit
step and maximum value 2. -/
theorem C6_extrapolate_grid_witness :
    ((ContinuedFraction.mk [] [1] [] 0 1).extrapolate_distinct [2, 3] 2 1).get? 0 =
      some ([2, 3] : List ℚ).sum ∧
    ∀ k : ℕ, 1 ≤ k → (k : ℚ) * 1 ≤ 2 →
      ((ContinuedFraction.mk [] [1] [] 0 1).extrapolate_distinct [2, 3] 2 1).get? k =
        some (([2, 3] : List ℚ).sum +
          (ContinuedFraction.mk [] [1] [] 0 1).eval ((k : ℚ) * 1)) :=
  C6_extrapolate_grid ⟨[], [1], [], 0, 1⟩ [2, 3] 2 1 (by norm_num)

/-- Counterexample to C7 as stated: with `max_terms = 6` the claimed degree
range is the single minimum allowed degree 6, whose per-degree maximum at
this configuration is 0, yet `lowerbound_librarysize` returns the sentinel
`numeric_limits<double>::max()` because its loop requires
`n_terms > MIN_ALLOWED_DEGREE` and so never tries degree 6. -/
theorem C7_min_degree_excluded_counterexample :
    ContinuedFractionApproximation.lowerbound_librarysize ⟨0, 6, 1, 1 / 2⟩ 0
        [0, 1, 1, 1, 1, 1, 1] 37 ≠
      lbPerDegree ⟨0, 6, 1, 1 / 2⟩ 0 [0, 1, 1, 1, 1, 1, 1] 37 6 := by
  have hlhs : ContinuedFractionApproximation.lowerbound_librarysize ⟨0, 6, 1, 1 / 2⟩ 0
      [0, 1, 1, 1, 1, 1, 1] 37 = dblMax := by
    show lbGo (lbPerDegree ⟨0, 6, 1, 1 / 2⟩ 0 [0, 1, 1, 1, 1, 1, 1] 37) (6 - 6 % 2) dblMax =
      dblMax
    rw [lbGo, dif_neg (by decide)]
  have hrhs : lbPerDegree ⟨0, 6, 1, 1 / 2⟩ 0 [0, 1, 1, 1, 1, 1, 1] 37 6 = 0 := by
    rw [lbPerDegree, local_max_eq_loop]
    have hfuel : gridFuel (⟨0, 6, 1, 1 / 2⟩ : ContinuedFractionApproximation).max_value
        (⟨0, 6, 1, 1 / 2⟩ : ContinuedFractionApproximation).step_size = 1 :=
      gridFuel_half_one
    rw [hfuel, localMaxLoop_exit _ _ _ _ _ _ (by norm_num), eval_at_zero]
  rw [hlhs, hrhs]
  norm_num [dblMax]

/-- C7 (amended): `lowerbound_librarysize` returns the minimum of the
sentinel `numeric_limits<double>::max()` and the per-degree maxima
(`local_max` seeded with the evaluator at zero) over the degrees from the
even-adjusted `max_terms` down in steps of two, excluding the minimum
allowed degree: the result is bounded by every tried degree candidate and
is either the sentinel or one of them. -/
theorem C7_lowerbound_min_of_maxima (cfa : ContinuedFractionApproximation) (lfuel : ℕ)
    (counts_hist : List ℚ) (upper_bound : ℚ) :
    cfa.lowerbound_librarysize lfuel counts_hist upper_bound ≤ dblMax ∧
    (∀ d, MIN_ALLOWED_DEGREE < d → d ≤ cfa.max_terms - cfa.max_terms % 2 → d % 2 = 0 →
      cfa.lowerbound_librarysize lfuel counts_hist upper_bound ≤
        lbPerDegree cfa lfuel counts_hist upper_bound d) ∧
    (cfa.lowerbound_librarysize lfuel counts_hist upper_bound = dblMax ∨
      ∃ d, MIN_ALLOWED_DEGREE < d ∧ d ≤ cfa.max_terms - cfa.max_terms % 2 ∧ d % 2 = 0 ∧
        cfa.lowerbound_librarysize lfuel counts_hist upper_bound =
          lbPerDegree cfa lfuel counts_hist upper_bound d) := by
  have hm0 : (cfa.max_terms - cfa.max_terms % 2) % 2 = 0 := by omega
  obtain ⟨ha, hb, hc⟩ := lbGo_spec (lbPerDegree cfa lfuel counts_hist upper_bound)
    (cfa.max_terms - cfa.max_terms % 2) dblMax
  refine ⟨ha, ?_, ?_⟩
  · intro d h1 h2 h3
    exact hb d h1 h2 (by omega)
  · rcases hc with hc | ⟨d, h1, h2, h3, h4⟩
    · exact Or.inl hc
    · exact Or.inr ⟨d, h1, h2, by omega, h4⟩

/-- Counterexample to C8 as stated: at the histogram `[5, 0, 0, 0, 0, 0, 0]`
(only the index-0 entry non-zero) all power-series coefficients are zero,
the extrapolated estimates are constant at the histogram sum, the stability
check accepts them, and `optimal_continued_fraction` returns a
ContinuedFraction instead of signalling a fitting failure. -/
theorem C8_zero_histogram_counterexample :
    ∃ cf, ContinuedFractionApproximation.optimal_continued_fraction ⟨0, 6, 1, 2⟩
        [5, 0, 0, 0, 0, 0, 0] = Except.ok cf :=
  ⟨_, optimal_ok_of_zero_tail ⟨0, 6, 1, 2⟩ [5, 0, 0, 0, 0, 0, 0]
    (by intro i; rcases i with _ | _ | _ | _ | _ | _ | i <;> simp [List.getD])
    (by decide)⟩

/-- C8 (amended): on a histogram whose entries at all frequencies `>= 1`
are zero, whenever the even-adjusted `max_terms` reaches the minimum
allowed degree, `optimal_continued_fraction` does not signal a fitting
failure: the all-zero power series makes the first tried degree's estimates
constant, the stability check accepts them, and the degenerate
ContinuedFraction at the largest even degree is returned. -/
theorem C8_zero_histogram_returns_degenerate (cfa : ContinuedFractionApproximation)
    (counts_hist : List ℚ)
    (hzero : ∀ i, counts_hist.getD (i + 1) 0 = 0)
    (h6 : MIN_ALLOWED_DEGREE ≤ cfa.max_terms - cfa.max_terms % 2) :
    cfa.optimal_continued_fraction counts_hist =
      Except.ok (ContinuedFraction.make
        (psCoeffsOfHist counts_hist (cfa.max_terms - cfa.max_terms % 2)) cfa.diagonal_idx
        (cfa.max_terms - cfa.max_terms % 2)) :=
  optimal_ok_of_zero_tail cfa counts_hist hzero h6

/-- Witness for the amended C8 at the histogram `[7, 0, 0, 0, 0, 0, 0, 0, 0]`
with `max_terms = 8`. -/
theorem C8_zero_histogram_witness :
    ContinuedFractionApproximation.optimal_continued_fraction ⟨0, 8, 1, 2⟩
        [7, 0, 0, 0, 0, 0, 0, 0, 0] =
      Except.ok (ContinuedFraction.make
        (psCoeffsOfHist [7, 0, 0, 0, 0, 0, 0, 0, 0] (8 - 8 % 2)) 0 (8 - 8 % 2)) :=
  C8_zero_histogram_returns_degenerate ⟨0, 8, 1, 2⟩ [7, 0, 0, 0, 0, 0, 0, 0, 0]
    (by intro i; rcases i with _ | _ | _ | _ | _ | _ | _ | _ | i <;> simp [List.getD])
    (by decide)

/-- Counterexample to C9 as stated: with the bracket `(10, 10 + 10^-21)`
the relative bracket movement is already below the tolerance, the bisection
loop runs zero iterations, and the function returns its initial `val_mid`,
half the bracket width `(val - prev_val)/2 = 1/(2*10^21)`, which lies far
outside the bracket. -/
theorem C9_bracket_counterexample :
    locate_zero_cf_deriv ⟨[], [1], [], 0, 1⟩ 5 (10 + 1 / 10 ^ 21) 10 = 1 / (2 * 10 ^ 21) ∧
    ¬((10 : ℚ) ≤ locate_zero_cf_deriv ⟨[], [1], [], 0, 1⟩ 5 (10 + 1 / 10 ^ 21) 10 ∧
      locate_zero_cf_deriv ⟨[], [1], [], 0, 1⟩ 5 (10 + 1 / 10 ^ 21) 10 ≤ 10 + 1 / 10 ^ 21) := by
  have hmov : ¬(movement 10 (10 + 1 / 10 ^ 21 : ℚ) > TOLERANCE) := by
    have hval : movement 10 (10 + 1 / 10 ^ 21 : ℚ) = (1 / 10 ^ 21) / (10 + 1 / 10 ^ 21) := by
      unfold movement
      rw [max_eq_right (by norm_num : (10 : ℚ) ≤ 10 + 1 / 10 ^ 21)]
      rw [show (10 : ℚ) - (10 + 1 / 10 ^ 21) = -(1 / 10 ^ 21) by ring]
      rw [neg_div, abs_neg, abs_of_nonneg (by positivity)]
    rw [hval, not_lt]
    norm_num [TOLERANCE]
  have hexit : locate_zero_cf_deriv ⟨[], [1], [], 0, 1⟩ 5 (10 + 1 / 10 ^ 21) 10 =
      ((10 + 1 / 10 ^ 21 : ℚ) - 10) / 2 := by
    unfold locate_zero_cf_deriv
    rw [locateLoop_exit _ _ _ (by rintro ⟨_, hm⟩; exact hmov hm)]
  constructor
  · rw [hexit]; norm_num
  · rw [hexit]
    rintro ⟨h1, _⟩
    norm_num at h1

/-- C9 (amended): when `prev_val < val` and the initial relative bracket
movement exceeds the tolerance (so, the initial `diff` being the numeric
maximum, at least one bisection iteration executes), the returned last
midpoint lies within the original bracket `[prev_val, val]`, for every
iteration fuel of at least one. -/
theorem C9_bisection_bracket (cf : ContinuedFraction) (fuel : ℕ) (val prev_val : ℚ)
    (hlt : prev_val < val) (hmov : movement prev_val val > TOLERANCE) (hfuel : 1 ≤ fuel) :
    prev_val ≤ locate_zero_cf_deriv cf fuel val prev_val ∧
    locate_zero_cf_deriv cf fuel val prev_val ≤ val :=
  locate_zero_in_bracket cf fuel val prev_val hlt hmov hfuel

/-- Witness for the amended C9 on the bracket `(0, 1)` with one unit of
fuel. -/
theorem C9_bisection_bracket_witness :
    (0 : ℚ) ≤ locate_zero_cf_deriv ⟨[], [1], [], 0, 1⟩ 1 1 0 ∧
    locate_zero_cf_deriv ⟨[], [1], [], 0, 1⟩ 1 1 0 ≤ 1 :=
  C9_bisection_bracket ⟨[], [1], [], 0, 1⟩ 1 1 0 (by norm_num)
    (by
      unfold movement
      rw [max_eq_right (by norm_num : (0 : ℚ) ≤ 1)]
      rw [show ((0 : ℚ) - 1) / 1 = -1 by norm_num, abs_neg, abs_one]
      norm_num [TOLERANCE])
    (by norm_num)

/-- C10: the claim fails on the code: already on a power series of length
two, the first quotient-table row loop reads `ps_coeffs[2]`, one past the
end, so the bounds-checked model of `quotdiff_algorithm` reports an
out-of-bounds access (`none`). -/
theorem C10_quotdiff_out_of_bounds : quotdiff_checked [(1 : ℚ), 1] = none := by
  rfl
end Preseq
